import Mathlib

/-!
Verification of the tick-buffering, signal-scoring and notification-lifecycle
engine of the signal bot in src/bot.py, via a shallow embedding in Lean.

Modelling conventions:
* Quote values are modelled as natural numbers; the last decimal digit of a
  quote, extracted in the source as the final character of the printed value
  (`int(str(t)[-1])`, line 98), is modelled as the value modulo 10.  The
  analysis depends on a quote only through this digit.
* Python float arithmetic is modelled by exact real arithmetic; the
  population standard deviation is the real square root of an exactly
  computed rational variance.
* Telegram transport results are passed in as parameters: a send attempt
  either yields a message id or fails (None).  Message bodies, timestamps
  and sleeps are not modelled; the handle bookkeeping and the order of the
  send/delete side effects are modelled exactly.
-/

namespace XtzBot

/-- The configured instruments (src/bot.py line 18). -/
def MARKETS : List String := ["R_10", "R_25", "R_50", "R_75", "R_100"]

/-- Python `l[-n:]`: the suffix of the last `n` elements
(the whole list when it is shorter than `n`). -/
def lastN {α : Type} (n : ℕ) (l : List α) : List α := l.drop (l.length - n)

/-- Last decimal digits of the buffered quotes (src/bot.py line 98):
`int(str(t)[-1])` is the units digit of the quote, modelled as `t % 10`. -/
def last_digits (ticks : List ℕ) : List ℕ := ticks.map (fun t => t % 10)

/-- `sum(d % 2 == 0 for d in last_digits)` (src/bot.py line 100). -/
def even_count (ds : List ℕ) : ℕ := (ds.filter (fun d => d % 2 = 0)).length

/-- `odd_count = len(last_digits) - even_count` (src/bot.py line 101). -/
def odd_count (ds : List ℕ) : ℕ := ds.length - even_count ds

/-- `sum(d > 3 for d in last_digits)` (src/bot.py line 102). -/
def over3_count (ds : List ℕ) : ℕ := (ds.filter (fun d => 3 < d)).length

/-- `sum(d < 6 for d in last_digits)` (src/bot.py line 103). -/
def under6_count (ds : List ℕ) : ℕ := (ds.filter (fun d => d < 6)).length

/-- Exact population variance (the square of `statistics.pstdev`) of a list
of rationals: mean of the squared deviations from the mean. -/
def pvarianceQ (l : List ℚ) : ℚ :=
  let n : ℚ := l.length
  let mu : ℚ := l.sum / n
  (l.map (fun x => (x - mu) ^ 2)).sum / n

/-- `statistics.pstdev(last_digits[-20:])` (src/bot.py line 111). -/
noncomputable def vol (ds : List ℕ) : ℝ :=
  Real.sqrt ((pvarianceQ ((lastN 20 ds).map (fun d => (d : ℚ))) : ℝ))

/-- Python `max(xs, key=...)` over a nonempty keyed list: the first pair
whose key value is maximal (a later pair replaces the current best only
when its value is strictly greater, exactly as Python `max` behaves). -/
def pickMax {α β : Type} [LinearOrder β] (x : α × β) (xs : List (α × β)) : α × β :=
  xs.foldl (fun best y => if best.2 < y.2 then y else best) x

/-- The `strength` dictionary of src/bot.py lines 114-119, in insertion
order.  Each entry is `(base count / window length + streak * 0.4)`
dampened by `1 + vol / 10`. -/
noncomputable def strength (ds : List ℕ) : List (String × ℝ) :=
  let streak_even : ℝ := (even_count (lastN 5 ds) : ℝ) / 5
  let streak_over3 : ℝ := (over3_count (lastN 5 ds) : ℝ) / 5
  let v : ℝ := vol ds
  [("Even", ((even_count ds : ℝ) / (ds.length : ℝ) + streak_even * 0.4) / (1 + v / 10)),
   ("Odd", ((odd_count ds : ℝ) / (ds.length : ℝ) + (1 - streak_even) * 0.4) / (1 + v / 10)),
   ("Over 3", ((over3_count ds : ℝ) / (ds.length : ℝ) + streak_over3 * 0.4) / (1 + v / 10)),
   ("Under 6", ((under6_count ds : ℝ) / (ds.length : ℝ) + (1 - streak_over3) * 0.4) / (1 + v / 10))]

/-- `analyze_market` of src/bot.py lines 87-124: absence below 30 samples,
otherwise the first maximal entry of the strength dictionary together with
its score (`max(strength, key=strength.get)`).  The market argument is
accepted, and ignored, as in the source. -/
noncomputable def analyze_market (_market : String) (ticks : List ℕ) : Option (String × ℝ) :=
  if ticks.length < 30 then none
  else
    match strength (last_digits ticks) with
    | [] => none
    | x :: xs => some (pickMax x xs)

/-- Rational numerator of the "Even" score (shared dampener divided out). -/
def qEven (ds : List ℕ) : ℚ :=
  (even_count ds : ℚ) / (ds.length : ℚ) + (even_count (lastN 5 ds) : ℚ) / 5 * 0.4

/-- Rational numerator of the "Odd" score. -/
def qOdd (ds : List ℕ) : ℚ :=
  (odd_count ds : ℚ) / (ds.length : ℚ) + (1 - (even_count (lastN 5 ds) : ℚ) / 5) * 0.4

/-- Rational numerator of the "Over 3" score. -/
def qOver3 (ds : List ℕ) : ℚ :=
  (over3_count ds : ℚ) / (ds.length : ℚ) + (over3_count (lastN 5 ds) : ℚ) / 5 * 0.4

/-- Rational numerator of the "Under 6" score. -/
def qUnder6 (ds : List ℕ) : ℚ :=
  (under6_count ds : ℚ) / (ds.length : ℚ) + (1 - (over3_count (lastN 5 ds) : ℚ) / 5) * 0.4

/-- The four score numerators in the source's insertion order. -/
def qscores (ds : List ℕ) : List (String × ℚ) :=
  [("Even", qEven ds), ("Odd", qOdd ds), ("Over 3", qOver3 ds), ("Under 6", qUnder6 ds)]

/-- Computable argmax over the rational score numerators; because the four
real scores share the positive dampener `1 + vol/10`, this picks the same
classification as the real-valued maximum in `analyze_market`. -/
def bestQ (ds : List ℕ) : String × ℚ :=
  pickMax ("Even", qEven ds) [("Odd", qOdd ds), ("Over 3", qOver3 ds), ("Under 6", qUnder6 ds)]

/-- The four classifications in the source's fixed insertion order. -/
def classNames : List String := ["Even", "Odd", "Over 3", "Under 6"]

/-- Modelled from the spec's words (refinement side): for a classification,
`score = (base_ratio + 0.4 * corresponding_short_term_bias) / (1 + v/10)`,
where the base ratios are the fractions of even / odd / greater-than-3 /
less-than-6 digits over the full window, the short-term biases are the
fraction even and the fraction greater than 3 over the last 5 digits (with
the complements used for "Odd" and "Under 6"), and `v` is the population
standard deviation of the last 20 digits. -/
noncomputable def specScore (ds : List ℕ) (c : String) : ℝ :=
  let n : ℝ := ds.length
  let biasEven : ℝ := (((lastN 5 ds).filter (fun d => d % 2 = 0)).length : ℝ) / 5
  let biasOver3 : ℝ := (((lastN 5 ds).filter (fun d => 3 < d)).length : ℝ) / 5
  let damp : ℝ := 1 + vol ds / 10
  if c = "Even" then (((ds.filter (fun d => d % 2 = 0)).length : ℝ) / n + 0.4 * biasEven) / damp
  else if c = "Odd" then (((ds.filter (fun d => d % 2 = 1)).length : ℝ) / n + 0.4 * (1 - biasEven)) / damp
  else if c = "Over 3" then (((ds.filter (fun d => 3 < d)).length : ℝ) / n + 0.4 * biasOver3) / damp
  else (((ds.filter (fun d => d < 6)).length : ℝ) / n + 0.4 * (1 - biasOver3)) / damp

/-- One step of the market-selection loop of src/bot.py lines 136-144:
skip buffers of at most 20 ticks, otherwise score the market and keep it
when its confidence strictly exceeds the best seen so far. -/
noncomputable def selStep (buffers : String → List ℕ)
    (acc : Option String × Option String × ℝ) (market : String) :
    Option String × Option String × ℝ :=
  if 20 < (buffers market).length then
    match analyze_market market (buffers market) with
    | some sc => if acc.2.2 < sc.2 then (some market, some sc.1, sc.2) else acc
    | none => acc
  else acc

/-- The whole selection loop (src/bot.py lines 134-144), starting from
`(None, None, 0)` and visiting the markets in configuration order. -/
noncomputable def selectBest (buffers : String → List ℕ) :
    Option String × Option String × ℝ :=
  MARKETS.foldl (selStep buffers) (none, none, 0)

/-- The sequencer's mutable handle bookkeeping (src/bot.py lines 33-34):
the transient message ids of the current cycle and the retained id of the
last expiry message. -/
structure BotState where
  active_messages : List ℕ
  last_expired_id : Option ℕ
deriving DecidableEq

/-- Observable side effects of one cycle, in order: a send attempt (with
its resulting message id, absent on failure) or a delete request. -/
inductive Ev where
  | sent (result : Option ℕ) : Ev
  | deleted (id : ℕ) : Ev
deriving DecidableEq

/-- `send_telegram_message` (src/bot.py lines 37-62): on success the id is
recorded as transient unless `keep` is set, and returned; on failure
(`resp.ok` false) nothing is recorded and `None` is returned.  The
transport outcome is a parameter. -/
def send_telegram_message (result : Option ℕ) (keep : Bool) (s : BotState) :
    BotState × Option ℕ :=
  match result with
  | some msg_id =>
      ({ s with active_messages :=
            if keep then s.active_messages else s.active_messages ++ [msg_id] },
       some msg_id)
  | none => (s, none)

/-- `delete_messages` (src/bot.py lines 65-73): a delete request for every
transient id, then the transient list is cleared.  Returns the ids deleted,
in order. -/
def delete_messages (s : BotState) : BotState × List ℕ :=
  ({ s with active_messages := [] }, s.active_messages)

/-- `delete_last_expired` (src/bot.py lines 76-84): when a retained expiry
id is present (and truthy: Python `if last_expired_id:` skips the id 0), a
delete request is issued for it and the retained slot is cleared. -/
def delete_last_expired (s : BotState) : BotState × List ℕ :=
  match s.last_expired_id with
  | some msg_id =>
      if msg_id = 0 then (s, [])
      else ({ s with last_expired_id := none }, [msg_id])
  | none => (s, [])

/-- One run of `fetch_and_analyze` (src/bot.py lines 127-189): delete the
previous cycle's retained expiry message, pick the best market, and when
one was found send the pre-alert (transient), main (transient) and expiry
(retained) notifications and finally delete every transient id.  The three
transport outcomes are parameters; the returned trace lists the side
effects in program order.  Message bodies, the entry digit and the sleeps
are not modelled. -/
noncomputable def fetch_and_analyze (buffers : String → List ℕ)
    (preResult mainResult postResult : Option ℕ) (s : BotState) :
    BotState × List Ev :=
  let p1 := delete_last_expired s
  let preDeletes := p1.2.map Ev.deleted
  match (selectBest buffers).1 with
  | some _ =>
      let q1 := send_telegram_message preResult false p1.1
      let q2 := send_telegram_message mainResult false q1.1
      let q3 := send_telegram_message postResult true q2.1
      let s4 : BotState := { q3.1 with last_expired_id := q3.2 }
      let q4 := delete_messages s4
      (q4.1, preDeletes ++ [Ev.sent q1.2, Ev.sent q2.2, Ev.sent q3.2] ++ q4.2.map Ev.deleted)
  | none => (p1.1, preDeletes)

/-- The buffer update of src/bot.py lines 200-202: append, then pop the
oldest element once the length exceeds 200. -/
def push (buf : List ℕ) (q : ℕ) : List ℕ :=
  let appended := buf ++ [q]
  if 200 < appended.length then appended.drop 1 else appended

/-- Shape of one inbound feed message as seen by `on_message`
(src/bot.py lines 192-202): unparseable JSON, a parsed object without a
"tick" key, a tick object missing the "symbol"/"quote" fields, or a proper
tick carrying an instrument identifier and a quote. -/
inductive FeedEvent where
  | malformed : FeedEvent
  | noTick : FeedEvent
  | missingField : FeedEvent
  | tick (symbol : String) (quote : ℕ) : FeedEvent
deriving DecidableEq

/-- `on_message` (src/bot.py lines 192-202).  Messages without a "tick"
key are ignored.  Unparseable JSON raises in `json.loads`; a tick object
without the required fields raises a KeyError; and a tick whose symbol is
not a configured market raises a KeyError from `market_ticks[symbol]`
before any buffer is touched.  A configured tick appends its quote to that
market's buffer with FIFO eviction above 200 entries. -/
def on_message (bufs : String → List ℕ) (ev : FeedEvent) :
    Except String (String → List ℕ) :=
  match ev with
  | .malformed => .error "JSONDecodeError"
  | .noTick => .ok bufs
  | .missingField => .error "KeyError"
  | .tick symbol quote =>
      if symbol ∈ MARKETS then
        .ok (fun m => if m = symbol then push (bufs m) quote else bufs m)
      else .error "KeyError"

/-- Run `on_message` as the websocket callback runner does: a raised
exception leaves the module-level buffers as they were. -/
def applyEvent (bufs : String → List ℕ) (ev : FeedEvent) : String → List ℕ :=
  match on_message bufs ev with
  | .ok newBufs => newBufs
  | .error _ => bufs

/-- The synthetic all-even tick sequence of the spec's test catalogue:
the digits 0, 2, 4, 6, 8 repeated 40 times (200 ticks). -/
def evenTicks : List ℕ := (List.replicate 40 [0, 2, 4, 6, 8]).flatten

/-- Buffers in which only R_10 has data, namely `evenTicks`. -/
def evenBufs : String → List ℕ := fun m => if m = "R_10" then evenTicks else []

/-! ### Generic facts about the first-maximum fold -/

theorem pickMax_nil {α β : Type} [LinearOrder β] (x : α × β) : pickMax x [] = x := rfl

theorem pickMax_cons {α β : Type} [LinearOrder β] (x y : α × β) (ys : List (α × β)) :
    pickMax x (y :: ys) = pickMax (if x.2 < y.2 then y else x) ys := rfl

theorem pickMax_mem {α β : Type} [LinearOrder β] :
    ∀ (xs : List (α × β)) (x : α × β), pickMax x xs ∈ x :: xs := by
  intro xs
  induction xs with
  | nil => intro x; simp [pickMax]
  | cons y ys ih =>
    intro x
    rw [pickMax_cons]
    by_cases hxy : x.2 < y.2
    · rw [if_pos hxy]
      exact List.mem_cons_of_mem _ (ih y)
    · rw [if_neg hxy]
      rcases List.mem_cons.mp (ih x) with h | h
      · rw [h]; exact List.mem_cons_self _ _
      · exact List.mem_cons_of_mem _ (List.mem_cons_of_mem _ h)

theorem pickMax_ub {α β : Type} [LinearOrder β] :
    ∀ (xs : List (α × β)) (x : α × β), ∀ y ∈ x :: xs, y.2 ≤ (pickMax x xs).2 := by
  intro xs
  induction xs with
  | nil =>
    intro x y hy
    rw [pickMax_nil]
    rcases List.mem_cons.mp hy with h | h
    · rw [h]
    · simp at h
  | cons z zs ih =>
    intro x y hy
    rw [pickMax_cons]
    by_cases hxz : x.2 < z.2
    · rw [if_pos hxz]
      rcases List.mem_cons.mp hy with h | h
      · rw [h]
        exact le_trans (le_of_lt hxz) (ih z z (List.mem_cons_self _ _))
      · rcases List.mem_cons.mp h with h2 | h2
        · rw [h2]; exact ih z z (List.mem_cons_self _ _)
        · exact ih z y (List.mem_cons_of_mem _ h2)
    · rw [if_neg hxz]
      rcases List.mem_cons.mp hy with h | h
      · rw [h]; exact ih x x (List.mem_cons_self _ _)
      · rcases List.mem_cons.mp h with h2 | h2
        · rw [h2]
          exact le_trans (le_of_not_lt hxz) (ih x x (List.mem_cons_self _ _))
        · exact ih x y (List.mem_cons_of_mem _ h2)

theorem pickMax_map {α β γ : Type} [LinearOrder β] [LinearOrder γ]
    (g : β → γ) (hg : ∀ a b : β, g a < g b ↔ a < b) :
    ∀ (xs : List (α × β)) (x : α × β),
      pickMax (x.1, g x.2) (xs.map (fun p => (p.1, g p.2))) =
        ((pickMax x xs).1, g (pickMax x xs).2) := by
  intro xs
  induction xs with
  | nil => intro x; rfl
  | cons y ys ih =>
    intro x
    rw [List.map_cons, pickMax_cons, pickMax_cons]
    by_cases hxy : x.2 < y.2
    · rw [if_pos ((hg x.2 y.2).mpr hxy), if_pos hxy]
      exact ih y
    · rw [if_neg (fun h => hxy ((hg x.2 y.2).mp h)), if_neg hxy]
      exact ih x

/-! ### The bounded tick buffer -/

theorem lastN_length {α : Type} (n : ℕ) (l : List α) :
    (lastN n l).length = min l.length n := by
  simp [lastN]
  omega

theorem push_at_capacity (buf : List ℕ) (q : ℕ) (h : buf.length = 200) :
    push buf q = buf.drop 1 ++ [q] := by
  simp only [push]
  rw [if_pos (by simp [List.length_append, h])]
  exact List.drop_append_of_le_length (by omega)

theorem push_lastN (ps : List ℕ) (q : ℕ) :
    push (lastN 200 ps) q = lastN 200 (ps ++ [q]) := by
  by_cases h : ps.length < 200
  · have e1 : lastN 200 ps = ps := by
      unfold lastN
      rw [Nat.sub_eq_zero_of_le (le_of_lt h), List.drop_zero]
    have e2 : ¬ 200 < (ps ++ [q]).length := by
      rw [List.length_append]
      simp only [List.length_singleton]
      omega
    rw [e1]
    simp only [push]
    rw [if_neg e2]
    unfold lastN
    rw [List.length_append]
    simp only [List.length_singleton]
    rw [Nat.sub_eq_zero_of_le (by omega), List.drop_zero]
  · push_neg at h
    have hlen : (lastN 200 ps).length = 200 := by rw [lastN_length]; omega
    simp only [push]
    rw [if_pos (by rw [List.length_append, hlen]; simp)]
    rw [List.drop_append_of_le_length (by omega)]
    unfold lastN
    rw [List.drop_drop, List.length_append]
    simp only [List.length_singleton]
    rw [List.drop_append_of_le_length (by omega)]
    have : ps.length - 200 + 1 = ps.length + 1 - 200 := by omega
    rw [this]

theorem foldl_push (qs : List ℕ) : ∀ ps : List ℕ,
    qs.foldl push (lastN 200 ps) = lastN 200 (ps ++ qs) := by
  induction qs with
  | nil => intro ps; simp
  | cons q qs ih =>
    intro ps
    rw [List.foldl_cons, push_lastN, ih (ps ++ [q]), List.append_assoc,
      List.singleton_append]

theorem foldl_push_nil (qs : List ℕ) : qs.foldl push [] = lastN 200 qs := by
  have h := foldl_push qs []
  rw [List.nil_append] at h
  have e : lastN 200 ([] : List ℕ) = [] := rfl
  rw [e] at h
  exact h

theorem applyEvent_tick (bufs : String → List ℕ) (m : String) (hm : m ∈ MARKETS) (q : ℕ) :
    applyEvent bufs (FeedEvent.tick m q) =
      fun m2 => if m2 = m then push (bufs m2) q else bufs m2 := by
  simp only [applyEvent, on_message, if_pos hm]

theorem ingest_ticks (m : String) (hm : m ∈ MARKETS) :
    ∀ (qs : List ℕ) (bufs : String → List ℕ),
      ((qs.map (FeedEvent.tick m)).foldl applyEvent bufs) m = qs.foldl push (bufs m) := by
  intro qs
  induction qs with
  | nil => intro bufs; rfl
  | cons q qs ih =>
    intro bufs
    rw [List.map_cons, List.foldl_cons, List.foldl_cons,
      applyEvent_tick bufs m hm q, ih]
    simp

/-- C3: for every configured instrument and every sequence of incoming tick
events for it, after ingestion the buffer equals exactly the most recent
min(n, 200) appended quotes in arrival order (so its length never exceeds
200), and an append at capacity evicts exactly the oldest element. -/
theorem claim_C3 (m : String) (hm : m ∈ MARKETS) (qs : List ℕ) :
    ((qs.map (FeedEvent.tick m)).foldl applyEvent (fun _ => [])) m = lastN 200 qs ∧
    (((qs.map (FeedEvent.tick m)).foldl applyEvent (fun _ => [])) m).length =
      min qs.length 200 ∧
    ∀ (buf : List ℕ) (q : ℕ), buf.length = 200 → push buf q = buf.drop 1 ++ [q] := by
  have h1 : ((qs.map (FeedEvent.tick m)).foldl applyEvent (fun _ => [])) m = lastN 200 qs := by
    rw [ingest_ticks m hm qs, foldl_push_nil]
  exact ⟨h1, by rw [h1, lastN_length], fun buf q h => push_at_capacity buf q h⟩

/-- Witness for C3 at the concrete market R_10 and quote sequence [1, 2, 3]. -/
theorem claim_C3_witness :
    (([1, 2, 3].map (FeedEvent.tick "R_10")).foldl applyEvent (fun _ => [])) "R_10" =
        lastN 200 [1, 2, 3] ∧
    ((([1, 2, 3].map (FeedEvent.tick "R_10")).foldl applyEvent (fun _ => [])) "R_10").length =
        min ([1, 2, 3] : List ℕ).length 200 ∧
    ∀ (buf : List ℕ) (q : ℕ), buf.length = 200 → push buf q = buf.drop 1 ++ [q] :=
  claim_C3 "R_10" (by decide) [1, 2, 3]

/-- C4: a buffer with fewer than 30 samples always yields the absence
marker, regardless of its contents. -/
theorem claim_C4 (market : String) (ticks : List ℕ) (h : ticks.length < 30) :
    analyze_market market ticks = none := by
  unfold analyze_market
  rw [if_pos h]

/-- Witness for C4 at a concrete 29-tick buffer. -/
theorem claim_C4_witness : analyze_market "R_10" (List.replicate 29 7) = none :=
  claim_C4 "R_10" (List.replicate 29 7) (by decide)

/-- C7 counterexample: a well-formed tick event whose instrument identifier
is not in the configured set is not silently dropped; the subscript
`market_ticks[symbol]` raises a KeyError out of the handler. -/
theorem claim_C7_counterexample :
    on_message (fun _ => []) (FeedEvent.tick "XYZ" 5) = Except.error "KeyError" := by
  simp only [on_message]
  rw [if_neg (by decide)]

/-- C7 amended: events without a "tick" key are silently dropped with the
buffers unchanged; unparseable events, tick events missing required fields,
and tick events carrying an unconfigured instrument identifier make the
handler raise, so an error escapes (in each case the failure happens before
any buffer is touched, so no buffer is modified). -/
theorem claim_C7_amended (bufs : String → List ℕ) :
    on_message bufs FeedEvent.noTick = Except.ok bufs ∧
    on_message bufs FeedEvent.malformed = Except.error "JSONDecodeError" ∧
    on_message bufs FeedEvent.missingField = Except.error "KeyError" ∧
    ∀ (symbol : String) (q : ℕ), symbol ∉ MARKETS →
      on_message bufs (FeedEvent.tick symbol q) = Except.error "KeyError" := by
  refine ⟨rfl, rfl, rfl, ?_⟩
  intro symbol q hs
  simp only [on_message]
  rw [if_neg hs]

/-- Witness for the amended C7: concrete empty buffers and the
unconfigured symbol frxEURUSD. -/
theorem claim_C7_amended_witness :
    on_message (fun _ => ([7] : List ℕ)) (FeedEvent.tick "frxEURUSD" 9) =
      Except.error "KeyError" :=
  (claim_C7_amended (fun _ => [7])).2.2.2 "frxEURUSD" 9 (by decide)

/-! ### The scorer -/

theorem vol_nonneg (ds : List ℕ) : 0 ≤ vol ds := Real.sqrt_nonneg _

theorem damp_pos (ds : List ℕ) : (0 : ℝ) < 1 + vol ds / 10 := by
  have h := vol_nonneg ds
  linarith

theorem analyze_market_eq (mk : String) (ticks : List ℕ) (h : ¬ ticks.length < 30)
    (x : String × ℝ) (xs : List (String × ℝ))
    (hs : strength (last_digits ticks) = x :: xs) :
    analyze_market mk ticks = some (pickMax x xs) := by
  unfold analyze_market
  rw [if_neg h, hs]

theorem even_add_odd_counts (ds : List ℕ) :
    even_count ds + (ds.filter (fun d => d % 2 = 1)).length = ds.length := by
  unfold even_count
  induction ds with
  | nil => rfl
  | cons a t ih =>
    rcases Nat.mod_two_eq_zero_or_one a with h | h <;>
      simp [List.filter_cons, h] <;> omega

theorem odd_count_eq (ds : List ℕ) :
    odd_count ds = (ds.filter (fun d => d % 2 = 1)).length := by
  have h := even_add_odd_counts ds
  have h2 : even_count ds ≤ ds.length := List.length_filter_le _ _
  unfold odd_count
  omega

theorem specScore_def_even (ds : List ℕ) :
    specScore ds "Even" =
      (((ds.filter (fun d => d % 2 = 0)).length : ℝ) / (ds.length : ℝ) +
        0.4 * ((((lastN 5 ds).filter (fun d => d % 2 = 0)).length : ℝ) / 5)) /
        (1 + vol ds / 10) := by
  simp only [specScore]
  simp

theorem specScore_def_odd (ds : List ℕ) :
    specScore ds "Odd" =
      (((ds.filter (fun d => d % 2 = 1)).length : ℝ) / (ds.length : ℝ) +
        0.4 * (1 - (((lastN 5 ds).filter (fun d => d % 2 = 0)).length : ℝ) / 5)) /
        (1 + vol ds / 10) := by
  simp only [specScore]
  simp

theorem specScore_def_over3 (ds : List ℕ) :
    specScore ds "Over 3" =
      (((ds.filter (fun d => 3 < d)).length : ℝ) / (ds.length : ℝ) +
        0.4 * ((((lastN 5 ds).filter (fun d => 3 < d)).length : ℝ) / 5)) /
        (1 + vol ds / 10) := by
  simp only [specScore]
  simp

theorem specScore_def_under6 (ds : List ℕ) :
    specScore ds "Under 6" =
      (((ds.filter (fun d => d < 6)).length : ℝ) / (ds.length : ℝ) +
        0.4 * (1 - (((lastN 5 ds).filter (fun d => 3 < d)).length : ℝ) / 5)) /
        (1 + vol ds / 10) := by
  simp only [specScore]
  simp

/-- The strength dictionary computes, entry by entry, exactly the
spec-side score of each classification, in the fixed order. -/
theorem strength_eq_spec (ds : List ℕ) :
    strength ds = classNames.map (fun c => (c, specScore ds c)) := by
  simp only [strength, classNames, List.map_cons, List.map_nil,
    specScore_def_even, specScore_def_odd, specScore_def_over3, specScore_def_under6,
    even_count, over3_count, under6_count, odd_count_eq,
    List.cons.injEq, Prod.mk.injEq, and_true, true_and]
  refine ⟨?_, ?_, ?_, ?_⟩ <;> ring

/-- C1: for every buffer of at least 30 ticks, analyze_market computes for
each of the four classifications a score equal to
(base ratio + 0.4 × corresponding short-term bias) / (1 + v/10), with v the
population standard deviation of the last 20 digits, and returns a
classification of maximal score with that score as its confidence. -/
theorem claim_C1 (market : String) (ticks : List ℕ) (h : 30 ≤ ticks.length) :
    strength (last_digits ticks) =
      classNames.map (fun c => (c, specScore (last_digits ticks) c)) ∧
    ∃ c ∈ classNames,
      analyze_market market ticks = some (c, specScore (last_digits ticks) c) ∧
      ∀ c2 ∈ classNames,
        specScore (last_digits ticks) c2 ≤ specScore (last_digits ticks) c := by
  refine ⟨strength_eq_spec _, ?_⟩
  have hne : ¬ ticks.length < 30 := not_lt.mpr h
  set ds := last_digits ticks with hds
  have hsplit : strength ds = ("Even", specScore ds "Even") ::
      [("Odd", specScore ds "Odd"), ("Over 3", specScore ds "Over 3"),
       ("Under 6", specScore ds "Under 6")] := by
    rw [strength_eq_spec]
    simp only [classNames, List.map_cons, List.map_nil]
  have hana := analyze_market_eq market ticks hne _ _ hsplit
  have hub := pickMax_ub
    [("Odd", specScore ds "Odd"), ("Over 3", specScore ds "Over 3"),
     ("Under 6", specScore ds "Under 6")] ("Even", specScore ds "Even")
  have hmem := pickMax_mem
    [("Odd", specScore ds "Odd"), ("Over 3", specScore ds "Over 3"),
     ("Under 6", specScore ds "Under 6")] ("Even", specScore ds "Even")
  have hE := hub ("Even", specScore ds "Even") (by simp)
  have hO := hub ("Odd", specScore ds "Odd") (by simp)
  have hT := hub ("Over 3", specScore ds "Over 3") (by simp)
  have hU := hub ("Under 6", specScore ds "Under 6") (by simp)
  simp only [List.mem_cons, List.not_mem_nil, or_false] at hmem
  rcases hmem with hr | hr | hr | hr
  · rw [hr] at hE hO hT hU
    refine ⟨"Even", by simp [classNames], by rw [hana, hr], ?_⟩
    intro c2 hc2
    simp only [classNames, List.mem_cons, List.not_mem_nil, or_false] at hc2
    rcases hc2 with rfl | rfl | rfl | rfl
    · exact hE
    · exact hO
    · exact hT
    · exact hU
  · rw [hr] at hE hO hT hU
    refine ⟨"Odd", by simp [classNames], by rw [hana, hr], ?_⟩
    intro c2 hc2
    simp only [classNames, List.mem_cons, List.not_mem_nil, or_false] at hc2
    rcases hc2 with rfl | rfl | rfl | rfl
    · exact hE
    · exact hO
    · exact hT
    · exact hU
  · rw [hr] at hE hO hT hU
    refine ⟨"Over 3", by simp [classNames], by rw [hana, hr], ?_⟩
    intro c2 hc2
    simp only [classNames, List.mem_cons, List.not_mem_nil, or_false] at hc2
    rcases hc2 with rfl | rfl | rfl | rfl
    · exact hE
    · exact hO
    · exact hT
    · exact hU
  · rw [hr] at hE hO hT hU
    refine ⟨"Under 6", by simp [classNames], by rw [hana, hr], ?_⟩
    intro c2 hc2
    simp only [classNames, List.mem_cons, List.not_mem_nil, or_false] at hc2
    rcases hc2 with rfl | rfl | rfl | rfl
    · exact hE
    · exact hO
    · exact hT
    · exact hU

set_option maxRecDepth 8000 in
/-- Witness for C1 at the concrete all-even 200-tick buffer. -/
theorem claim_C1_witness :
    strength (last_digits evenTicks) =
      classNames.map (fun c => (c, specScore (last_digits evenTicks) c)) ∧
    ∃ c ∈ classNames,
      analyze_market "R_10" evenTicks = some (c, specScore (last_digits evenTicks) c) ∧
      ∀ c2 ∈ classNames,
        specScore (last_digits evenTicks) c2 ≤ specScore (last_digits evenTicks) c :=
  claim_C1 "R_10" evenTicks (by decide)

/-! ### Bridging the real scores to the rational numerators -/

theorem strength_eq_map_q (ds : List ℕ) :
    strength ds = (qscores ds).map
      (fun p => (p.1, (p.2 : ℝ) / (1 + vol ds / 10))) := by
  simp only [strength, qscores, qEven, qOdd, qOver3, qUnder6, List.map_cons,
    List.map_nil, List.cons.injEq, Prod.mk.injEq, and_true, true_and]
  refine ⟨?_, ?_, ?_, ?_⟩ <;> push_cast <;> ring

theorem div_damp_lt_iff (ds : List ℕ) (a b : ℚ) :
    ((a : ℝ) / (1 + vol ds / 10) < (b : ℝ) / (1 + vol ds / 10)) ↔ a < b := by
  rw [div_lt_div_iff_of_pos_right (damp_pos ds)]
  exact Rat.cast_lt

theorem pickMax_map2 {α β γ : Type} [LinearOrder β] [LinearOrder γ]
    (g : β → γ) (hg : ∀ a b : β, g a < g b ↔ a < b)
    (xs : List (α × β)) (a : α) (b : β) :
    pickMax (a, g b) (xs.map (fun p => (p.1, g p.2))) =
      ((pickMax (a, b) xs).1, g (pickMax (a, b) xs).2) :=
  pickMax_map g hg xs (a, b)

/-- `analyze_market` above the sample floor equals the rational argmax,
with the winning numerator divided by the shared dampener. -/
theorem analyze_eq_bestQ (mk : String) (ticks : List ℕ) (h : ¬ ticks.length < 30) :
    analyze_market mk ticks =
      some ((bestQ (last_digits ticks)).1,
        ((bestQ (last_digits ticks)).2 : ℝ) / (1 + vol (last_digits ticks) / 10)) := by
  set ds := last_digits ticks with hds
  have hsplit : strength ds =
      ("Even", (qEven ds : ℝ) / (1 + vol ds / 10)) ::
      [("Odd", (qOdd ds : ℝ) / (1 + vol ds / 10)),
       ("Over 3", (qOver3 ds : ℝ) / (1 + vol ds / 10)),
       ("Under 6", (qUnder6 ds : ℝ) / (1 + vol ds / 10))] := by
    rw [strength_eq_map_q]
    simp only [qscores, List.map_cons, List.map_nil]
  have hana := analyze_market_eq mk ticks h _ _ hsplit
  rw [hana]
  have hmap := pickMax_map2 (fun q : ℚ => (q : ℝ) / (1 + vol ds / 10))
      (fun a b => div_damp_lt_iff ds a b)
      [("Odd", qOdd ds), ("Over 3", qOver3 ds), ("Under 6", qUnder6 ds)]
      "Even" (qEven ds)
  simp only [List.map_cons, List.map_nil] at hmap
  rw [hmap]
  rfl

/-! ### Bounds on the score numerators and the confidence -/

theorem count_div_le_one (ds : List ℕ) (h : 0 < ds.length) (p : ℕ → Bool) :
    ((ds.filter p).length : ℚ) / (ds.length : ℚ) ≤ 1 := by
  rw [div_le_one (by exact_mod_cast h)]
  exact_mod_cast List.length_filter_le p ds

theorem filter_lastN5_le (ds : List ℕ) (p : ℕ → Bool) :
    ((lastN 5 ds).filter p).length ≤ 5 := by
  have h1 : ((lastN 5 ds).filter p).length ≤ (lastN 5 ds).length :=
    List.length_filter_le _ _
  have h2 : (lastN 5 ds).length = min ds.length 5 := lastN_length 5 ds
  omega

theorem qEven_add_qOdd (ds : List ℕ) (h : 0 < ds.length) :
    qEven ds + qOdd ds = 7 / 5 := by
  have hle : even_count ds ≤ ds.length := List.length_filter_le _ _
  have hn : (ds.length : ℚ) ≠ 0 := by
    exact_mod_cast Nat.pos_iff_ne_zero.mp h
  unfold qEven qOdd odd_count
  rw [Nat.cast_sub hle]
  field_simp
  ring

theorem qscores_le (ds : List ℕ) (h : 0 < ds.length) :
    ∀ p ∈ qscores ds, p.2 ≤ 7 / 5 := by
  intro p hp
  have hbias : ∀ q : ℕ → Bool,
      (0 : ℚ) ≤ (((lastN 5 ds).filter q).length : ℚ) / 5 ∧
      (((lastN 5 ds).filter q).length : ℚ) / 5 ≤ 1 := by
    intro q
    constructor
    · positivity
    · rw [div_le_one (by norm_num)]
      exact_mod_cast filter_lastN5_le ds q
  simp only [qscores, List.mem_cons, List.not_mem_nil, or_false] at hp
  have hq2 : (0:ℚ) < 2/5 := by norm_num
  rcases hp with rfl | rfl | rfl | rfl
  · unfold qEven even_count
    have h1 := count_div_le_one ds h (fun d => decide (d % 2 = 0))
    obtain ⟨hb0, hb1⟩ := hbias (fun d => decide (d % 2 = 0))
    have h2 : (((lastN 5 ds).filter (fun d => decide (d % 2 = 0))).length : ℚ) / 5 * 0.4
        ≤ 1 * 0.4 := by
      exact mul_le_mul_of_nonneg_right hb1 (by norm_num)
    simp only
    nlinarith
  · unfold qOdd odd_count even_count
    have h1 := count_div_le_one ds h (fun d => decide (d % 2 = 1))
    obtain ⟨hb0, hb1⟩ := hbias (fun d => decide (d % 2 = 0))
    have h2 : (1 - (((lastN 5 ds).filter (fun d => decide (d % 2 = 0))).length : ℚ) / 5) * 0.4
        ≤ 1 * 0.4 := by
      exact mul_le_mul_of_nonneg_right (by linarith) (by norm_num)
    have h3 : ((ds.length - (ds.filter (fun d => decide (d % 2 = 0))).length : ℕ) : ℚ)
        / (ds.length : ℚ) ≤ 1 := by
      rw [div_le_one (by exact_mod_cast h)]
      have := List.length_filter_le (fun d => decide (d % 2 = 0)) ds
      exact_mod_cast Nat.sub_le _ _
    nlinarith
  · unfold qOver3 over3_count
    have h1 := count_div_le_one ds h (fun d => decide (3 < d))
    obtain ⟨hb0, hb1⟩ := hbias (fun d => decide (3 < d))
    have h2 : (((lastN 5 ds).filter (fun d => decide (3 < d))).length : ℚ) / 5 * 0.4
        ≤ 1 * 0.4 := by
      exact mul_le_mul_of_nonneg_right hb1 (by norm_num)
    simp only
    nlinarith
  · unfold qUnder6 under6_count over3_count
    have h1 := count_div_le_one ds h (fun d => decide (d < 6))
    obtain ⟨hb0, hb1⟩ := hbias (fun d => decide (3 < d))
    have h2 : (1 - (((lastN 5 ds).filter (fun d => decide (3 < d))).length : ℚ) / 5) * 0.4
        ≤ 1 * 0.4 := by
      exact mul_le_mul_of_nonneg_right (by linarith) (by norm_num)
    nlinarith

theorem bestQ_mem (ds : List ℕ) : bestQ ds ∈ qscores ds := by
  unfold bestQ qscores
  exact pickMax_mem _ _

theorem bestQ_ge_even (ds : List ℕ) : qEven ds ≤ (bestQ ds).2 := by
  unfold bestQ
  exact pickMax_ub _ _ ("Even", qEven ds) (by simp)

theorem bestQ_ge_odd (ds : List ℕ) : qOdd ds ≤ (bestQ ds).2 := by
  unfold bestQ
  exact pickMax_ub _ _ ("Odd", qOdd ds) (by simp)

/-- Any confidence produced above the sample floor lies in (0, 1.4]. -/
theorem confidence_bounds (mk : String) (ticks : List ℕ) (h : 30 ≤ ticks.length)
    (s : String) (c : ℝ) (ha : analyze_market mk ticks = some (s, c)) :
    0 < c ∧ c ≤ 1.4 := by
  have hne : ¬ ticks.length < 30 := not_lt.mpr h
  rw [analyze_eq_bestQ mk ticks hne] at ha
  simp only [Option.some.injEq, Prod.mk.injEq] at ha
  obtain ⟨hs, hc⟩ := ha
  set ds := last_digits ticks with hds
  have hlen : 0 < ds.length := by
    rw [hds]
    unfold last_digits
    rw [List.length_map]
    omega
  have hq_le : (bestQ ds).2 ≤ 7 / 5 := qscores_le ds hlen _ (bestQ_mem ds)
  have hq_ge : 7 / 10 ≤ (bestQ ds).2 := by
    have hsum := qEven_add_qOdd ds hlen
    have h1 := bestQ_ge_even ds
    have h2 := bestQ_ge_odd ds
    linarith
  have hD : (1 : ℝ) ≤ 1 + vol ds / 10 := by
    have := vol_nonneg ds
    linarith
  constructor
  · rw [← hc]
    apply div_pos _ (damp_pos ds)
    exact_mod_cast lt_of_lt_of_le (by norm_num : (0:ℚ) < 7/10) hq_ge
  · rw [← hc]
    have h1 : ((bestQ ds).2 : ℝ) / (1 + vol ds / 10) ≤ ((bestQ ds).2 : ℝ) := by
      apply div_le_self _ hD
      exact_mod_cast le_trans (by norm_num : (0:ℚ) ≤ 7/10) hq_ge
    have h2 : ((bestQ ds).2 : ℝ) ≤ ((7/5 : ℚ) : ℝ) := by
      exact_mod_cast hq_le
    have h3 : ((7/5 : ℚ) : ℝ) = 1.4 := by norm_num
    linarith

/-- C10: for every buffer of at least 30 ticks (last-digit extraction
always succeeds in this model), the confidence returned by analyze_market
is strictly greater than 0 and at most 1.4. -/
theorem claim_C10 (market : String) (ticks : List ℕ) (h : 30 ≤ ticks.length)
    (s : String) (c : ℝ) (ha : analyze_market market ticks = some (s, c)) :
    0 < c ∧ c ≤ 1.4 :=
  confidence_bounds market ticks h s c ha

/-! ### Concrete evaluation on the all-even buffer -/

set_option maxRecDepth 8000 in
theorem qEven_evenTicks : qEven (last_digits evenTicks) = 7/5 := by
  have h1 : even_count (last_digits evenTicks) = 200 := by decide
  have h2 : (last_digits evenTicks).length = 200 := by decide
  have h3 : even_count (lastN 5 (last_digits evenTicks)) = 5 := by decide
  unfold qEven
  rw [h1, h2, h3]
  norm_num

set_option maxRecDepth 8000 in
theorem qOdd_evenTicks : qOdd (last_digits evenTicks) = 0 := by
  have h1 : odd_count (last_digits evenTicks) = 0 := by decide
  have h2 : (last_digits evenTicks).length = 200 := by decide
  have h3 : even_count (lastN 5 (last_digits evenTicks)) = 5 := by decide
  unfold qOdd
  rw [h1, h2, h3]
  norm_num

set_option maxRecDepth 8000 in
theorem qOver3_evenTicks : qOver3 (last_digits evenTicks) = 21/25 := by
  have h1 : over3_count (last_digits evenTicks) = 120 := by decide
  have h2 : (last_digits evenTicks).length = 200 := by decide
  have h3 : over3_count (lastN 5 (last_digits evenTicks)) = 3 := by decide
  unfold qOver3
  rw [h1, h2, h3]
  norm_num

set_option maxRecDepth 8000 in
theorem qUnder6_evenTicks : qUnder6 (last_digits evenTicks) = 19/25 := by
  have h1 : under6_count (last_digits evenTicks) = 120 := by decide
  have h2 : (last_digits evenTicks).length = 200 := by decide
  have h3 : over3_count (lastN 5 (last_digits evenTicks)) = 3 := by decide
  unfold qUnder6
  rw [h1, h2, h3]
  norm_num

theorem bestQ_evenTicks : bestQ (last_digits evenTicks) = ("Even", 7/5) := by
  unfold bestQ pickMax
  rw [qEven_evenTicks, qOdd_evenTicks, qOver3_evenTicks, qUnder6_evenTicks]
  norm_num [List.foldl]

set_option maxRecDepth 8000 in
theorem analyze_evenTicks (mk : String) :
    analyze_market mk evenTicks =
      some ("Even", ((7/5 : ℚ) : ℝ) / (1 + vol (last_digits evenTicks) / 10)) := by
  have h := analyze_eq_bestQ mk evenTicks (by decide)
  rw [bestQ_evenTicks] at h
  exact h

set_option maxRecDepth 8000 in
/-- Witness for C10: the concrete confidence on the all-even buffer is
positive and at most 1.4. -/
theorem claim_C10_witness :
    0 < ((7/5 : ℚ) : ℝ) / (1 + vol (last_digits evenTicks) / 10) ∧
    ((7/5 : ℚ) : ℝ) / (1 + vol (last_digits evenTicks) / 10) ≤ 1.4 :=
  claim_C10 "R_10" evenTicks (by decide) "Even" _ (analyze_evenTicks "R_10")

set_option maxRecDepth 8000 in
/-- C8: on the all-even buffer (the digits 0, 2, 4, 6, 8 repeated 40 times
as tick values) the scorer returns classification "Even", and the Even
score is strictly greater than the Odd score. -/
theorem claim_C8 :
    analyze_market "R_10" evenTicks =
      some ("Even", specScore (last_digits evenTicks) "Even") ∧
    specScore (last_digits evenTicks) "Odd" < specScore (last_digits evenTicks) "Even" := by
  have hE : specScore (last_digits evenTicks) "Even" =
      ((7/5 : ℚ) : ℝ) / (1 + vol (last_digits evenTicks) / 10) := by
    rw [specScore_def_even]
    have h1 : ((last_digits evenTicks).filter (fun d => d % 2 = 0)).length = 200 := by decide
    have h2 : (last_digits evenTicks).length = 200 := by decide
    have h3 : ((lastN 5 (last_digits evenTicks)).filter (fun d => d % 2 = 0)).length = 5 := by
      decide
    rw [h1, h2, h3]
    norm_num
  have hO : specScore (last_digits evenTicks) "Odd" = 0 := by
    rw [specScore_def_odd]
    have h1 : ((last_digits evenTicks).filter (fun d => d % 2 = 1)).length = 0 := by decide
    have h2 : (last_digits evenTicks).length = 200 := by decide
    have h3 : ((lastN 5 (last_digits evenTicks)).filter (fun d => d % 2 = 0)).length = 5 := by
      decide
    rw [h1, h2, h3]
    norm_num
  refine ⟨?_, ?_⟩
  · rw [analyze_evenTicks "R_10", hE]
  · rw [hE, hO]
    exact div_pos (by norm_num) (damp_pos _)

/-- The first-maximum fold returns an element such that everything strictly
before it in the list is strictly smaller (Python max keeps the earliest of
equal maxima). -/
theorem pickMax_split {α β : Type} [LinearOrder β] :
    ∀ (xs : List (α × β)) (x : α × β),
      ∃ l₁ l₂ : List (α × β),
        x :: xs = l₁ ++ pickMax x xs :: l₂ ∧
        ∀ y ∈ l₁, y.2 < (pickMax x xs).2 := by
  intro xs
  induction xs with
  | nil =>
    intro x
    refine ⟨[], [], by simp [pickMax_nil], ?_⟩
    intro y hy
    exact absurd hy (List.not_mem_nil y)
  | cons z zs ih =>
    intro x
    rw [pickMax_cons]
    by_cases hxz : x.2 < z.2
    · rw [if_pos hxz]
      obtain ⟨l₁, l₂, heq, hlt⟩ := ih z
      refine ⟨x :: l₁, l₂, ?_, ?_⟩
      · rw [List.cons_append, ← heq]
      · intro y hy
        rcases List.mem_cons.mp hy with rfl | hy2
        · exact lt_of_lt_of_le hxz (pickMax_ub zs z z (List.mem_cons_self _ _))
        · exact hlt y hy2
    · rw [if_neg hxz]
      obtain ⟨l₁, l₂, heq, hlt⟩ := ih x
      cases l₁ with
      | nil =>
        rw [List.nil_append] at heq
        injection heq with h1 h2
        refine ⟨[], z :: l₂, ?_, ?_⟩
        · rw [List.nil_append, ← h1, h2]
        · intro y hy
          exact absurd hy (List.not_mem_nil y)
      | cons a t =>
        rw [List.cons_append] at heq
        injection heq with h1 h2
        subst h1
        refine ⟨x :: z :: t, l₂, ?_, ?_⟩
        · rw [List.cons_append, List.cons_append, ← h2]
        · intro y hy
          have hxlt : x.2 < (pickMax x zs).2 := hlt x (List.mem_cons_self _ _)
          rcases List.mem_cons.mp hy with rfl | hy2
          · exact hxlt
          · rcases List.mem_cons.mp hy2 with rfl | hy3
            · exact lt_of_le_of_lt (le_of_not_lt hxz) hxlt
            · exact hlt y (List.mem_cons_of_mem _ hy3)

/-- C9: above the sample floor, analyze_market returns the first
classification attaining the maximal score in the fixed priority order
Even, Odd, Over 3, Under 6: every classification strictly before the
winner in that order scores strictly less, and none scores more, so ties
at the maximum resolve to the earliest classification. -/
theorem claim_C9 (market : String) (ticks : List ℕ) (h : 30 ≤ ticks.length) :
    ∃ c ∈ classNames, ∃ l₁ l₂ : List String,
      classNames = l₁ ++ c :: l₂ ∧
      analyze_market market ticks = some (c, specScore (last_digits ticks) c) ∧
      (∀ c2 ∈ classNames,
        specScore (last_digits ticks) c2 ≤ specScore (last_digits ticks) c) ∧
      (∀ c2 ∈ l₁,
        specScore (last_digits ticks) c2 < specScore (last_digits ticks) c) := by
  have hne : ¬ ticks.length < 30 := not_lt.mpr h
  set ds := last_digits ticks with hds
  set f : String → String × ℝ := fun c => (c, specScore ds c) with hf
  have hsplit : strength ds = f "Even" :: [f "Odd", f "Over 3", f "Under 6"] := by
    rw [strength_eq_spec]
    simp only [classNames, List.map_cons, List.map_nil]
  have hana := analyze_market_eq market ticks hne _ _ hsplit
  have hlist : f "Even" :: [f "Odd", f "Over 3", f "Under 6"] = classNames.map f := by
    simp only [classNames, List.map_cons, List.map_nil]
  obtain ⟨l₁, l₂, heq, hlt⟩ := pickMax_split [f "Odd", f "Over 3", f "Under 6"] (f "Even")
  have hub := pickMax_ub [f "Odd", f "Over 3", f "Under 6"] (f "Even")
  set r := pickMax (f "Even") [f "Odd", f "Over 3", f "Under 6"] with hr
  have hshape : ∀ y ∈ classNames.map f, y = (y.1, specScore ds y.1) := by
    intro y hy
    obtain ⟨c0, hc0, rfl⟩ := List.mem_map.mp hy
    rfl
  have hrmem : r ∈ classNames.map f := by
    rw [← hlist, hr]
    exact pickMax_mem _ _
  have hrshape := hshape r hrmem
  have hr2 : r.2 = specScore ds r.1 := by
    conv_lhs => rw [hrshape]
  refine ⟨r.1, ?_, l₁.map Prod.fst, l₂.map Prod.fst, ?_, ?_, ?_, ?_⟩
  · obtain ⟨c0, hc0, hfc⟩ := List.mem_map.mp hrmem
    rw [← hfc]
    exact hc0
  · have h2 : classNames.map f = l₁ ++ r :: l₂ := by
      rw [← hlist]
      exact heq
    have h3 := congrArg (List.map Prod.fst) h2
    rw [List.map_map] at h3
    simp only [List.map_append, List.map_cons] at h3
    have h4 : classNames.map (Prod.fst ∘ f) = classNames := by
      simp [hf, Function.comp_def]
    rw [h4] at h3
    exact h3
  · rw [hana]
    conv_lhs => rw [hrshape]
  · intro c2 hc2
    have hy : f c2 ∈ f "Even" :: [f "Odd", f "Over 3", f "Under 6"] := by
      rw [hlist]
      exact List.mem_map_of_mem f hc2
    have hle := hub (f c2) hy
    rw [← hr2]
    exact hle
  · intro c2 hc2
    obtain ⟨y, hy, rfl⟩ := List.mem_map.mp hc2
    have hymem : y ∈ classNames.map f := by
      rw [← hlist, heq]
      exact List.mem_append_left _ hy
    have hyshape := hshape y hymem
    have hy2 : y.2 = specScore ds y.1 := by
      conv_lhs => rw [hyshape]
    have hstr := hlt y hy
    rw [← hr2, ← hy2]
    exact hstr

set_option maxRecDepth 8000 in
/-- Witness for C9 at the concrete all-even 200-tick buffer. -/
theorem claim_C9_witness :
    ∃ c ∈ classNames, ∃ l₁ l₂ : List String,
      classNames = l₁ ++ c :: l₂ ∧
      analyze_market "R_10" evenTicks =
        some (c, specScore (last_digits evenTicks) c) ∧
      (∀ c2 ∈ classNames,
        specScore (last_digits evenTicks) c2 ≤ specScore (last_digits evenTicks) c) ∧
      (∀ c2 ∈ l₁,
        specScore (last_digits evenTicks) c2 < specScore (last_digits evenTicks) c) :=
  claim_C9 "R_10" evenTicks (by decide)

/-! ### The market-selection loop -/

theorem analyze_some_len (mk : String) (ticks : List ℕ) (p : String × ℝ)
    (h : analyze_market mk ticks = some p) : 30 ≤ ticks.length := by
  by_contra hc
  push_neg at hc
  unfold analyze_market at h
  rw [if_pos hc] at h
  exact Option.noConfusion h

theorem analyze_some_pos (mk : String) (ticks : List ℕ) (h : 30 ≤ ticks.length) :
    ∃ s c, analyze_market mk ticks = some (s, c) ∧ 0 < c := by
  have hb := analyze_eq_bestQ mk ticks (not_lt.mpr h)
  exact ⟨_, _, hb, (confidence_bounds mk ticks h _ _ hb).1⟩

theorem selStep_skip (bf : String → List ℕ) (acc : Option String × Option String × ℝ)
    (m : String) (h : ¬ 20 < (bf m).length) : selStep bf acc m = acc := by
  unfold selStep
  rw [if_neg h]

theorem selStep_none (bf : String → List ℕ) (acc : Option String × Option String × ℝ)
    (m : String) (h20 : 20 < (bf m).length)
    (hres : analyze_market m (bf m) = none) : selStep bf acc m = acc := by
  unfold selStep
  rw [if_pos h20]
  simp only [hres]

theorem selStep_take (bf : String → List ℕ) (acc : Option String × Option String × ℝ)
    (m : String) (sc : String × ℝ) (h20 : 20 < (bf m).length)
    (hres : analyze_market m (bf m) = some sc) (hlt : acc.2.2 < sc.2) :
    selStep bf acc m = (some m, some sc.1, sc.2) := by
  unfold selStep
  rw [if_pos h20]
  simp only [hres]
  rw [if_pos hlt]

theorem selStep_keep (bf : String → List ℕ) (acc : Option String × Option String × ℝ)
    (m : String) (sc : String × ℝ) (h20 : 20 < (bf m).length)
    (hres : analyze_market m (bf m) = some sc) (hlt : ¬ acc.2.2 < sc.2) :
    selStep bf acc m = acc := by
  unfold selStep
  rw [if_pos h20]
  simp only [hres]
  rw [if_neg hlt]

theorem selStep_mono (bf : String → List ℕ) (acc : Option String × Option String × ℝ)
    (m : String) : acc.2.2 ≤ (selStep bf acc m).2.2 := by
  by_cases h20 : 20 < (bf m).length
  · cases hres : analyze_market m (bf m) with
    | none => rw [selStep_none bf acc m h20 hres]
    | some sc =>
      by_cases hlt : acc.2.2 < sc.2
      · rw [selStep_take bf acc m sc h20 hres hlt]
        exact le_of_lt hlt
      · rw [selStep_keep bf acc m sc h20 hres hlt]
  · rw [selStep_skip bf acc m h20]

theorem selFold_mono (bf : String → List ℕ) :
    ∀ (l : List String) (acc : Option String × Option String × ℝ),
      acc.2.2 ≤ (l.foldl (selStep bf) acc).2.2 := by
  intro l
  induction l with
  | nil => intro acc; exact le_refl _
  | cons m0 rest ih =>
    intro acc
    rw [List.foldl_cons]
    exact le_trans (selStep_mono bf acc m0) (ih _)

theorem selFold_good (bf : String → List ℕ) :
    ∀ (l : List String) (acc : Option String × Option String × ℝ),
      (acc = (none, none, 0) ∨ ∃ m s c, acc = (some m, some s, c) ∧ m ∈ MARKETS ∧
        20 < (bf m).length ∧ analyze_market m (bf m) = some (s, c)) →
      (∀ m ∈ l, m ∈ MARKETS) →
      ((l.foldl (selStep bf) acc) = (none, none, 0) ∨
        ∃ m s c, (l.foldl (selStep bf) acc) = (some m, some s, c) ∧ m ∈ MARKETS ∧
          20 < (bf m).length ∧ analyze_market m (bf m) = some (s, c)) := by
  intro l
  induction l with
  | nil => intro acc hacc _; exact hacc
  | cons m0 rest ih =>
    intro acc hacc hmem
    rw [List.foldl_cons]
    apply ih
    · by_cases h20 : 20 < (bf m0).length
      · cases hres : analyze_market m0 (bf m0) with
        | none =>
          rw [selStep_none bf acc m0 h20 hres]
          exact hacc
        | some sc =>
          by_cases hlt : acc.2.2 < sc.2
          · rw [selStep_take bf acc m0 sc h20 hres hlt]
            right
            exact ⟨m0, sc.1, sc.2, rfl, hmem m0 (List.mem_cons_self _ _), h20, by rw [hres]⟩
          · rw [selStep_keep bf acc m0 sc h20 hres hlt]
            exact hacc
      · rw [selStep_skip bf acc m0 h20]
        exact hacc
    · intro m hm
      exact hmem m (List.mem_cons_of_mem _ hm)

theorem selFold_ub (bf : String → List ℕ) :
    ∀ (l : List String) (acc : Option String × Option String × ℝ)
      (m : String) (s : String) (c : ℝ),
      m ∈ l → 20 < (bf m).length → analyze_market m (bf m) = some (s, c) →
      c ≤ (l.foldl (selStep bf) acc).2.2 := by
  intro l
  induction l with
  | nil =>
    intro acc m s c hm
    exact absurd hm (List.not_mem_nil m)
  | cons m0 rest ih =>
    intro acc m s c hm h20 hres
    rw [List.foldl_cons]
    rcases List.mem_cons.mp hm with rfl | hm2
    · have hstep : c ≤ (selStep bf acc m).2.2 := by
        by_cases hlt : acc.2.2 < c
        · rw [selStep_take bf acc m (s, c) h20 hres hlt]
        · rw [selStep_keep bf acc m (s, c) h20 hres hlt]
          exact le_of_not_lt hlt
      exact le_trans hstep (selFold_mono bf rest _)
    · exact ih _ m s c hm2 h20 hres

theorem selFold_stays_some (bf : String → List ℕ) :
    ∀ (l : List String) (acc : Option String × Option String × ℝ),
      acc.1 ≠ none → (l.foldl (selStep bf) acc).1 ≠ none := by
  intro l
  induction l with
  | nil => intro acc h; exact h
  | cons m0 rest ih =>
    intro acc h
    rw [List.foldl_cons]
    apply ih
    by_cases h20 : 20 < (bf m0).length
    · cases hres : analyze_market m0 (bf m0) with
      | none =>
        rw [selStep_none bf acc m0 h20 hres]
        exact h
      | some sc =>
        by_cases hlt : acc.2.2 < sc.2
        · rw [selStep_take bf acc m0 sc h20 hres hlt]
          simp
        · rw [selStep_keep bf acc m0 sc h20 hres hlt]
          exact h
    · rw [selStep_skip bf acc m0 h20]
      exact h

theorem selStep_ninv (bf : String → List ℕ) (acc : Option String × Option String × ℝ)
    (m : String) (h : acc.1 = none → acc.2.2 = 0) :
    (selStep bf acc m).1 = none → (selStep bf acc m).2.2 = 0 := by
  by_cases h20 : 20 < (bf m).length
  · cases hres : analyze_market m (bf m) with
    | none =>
      rw [selStep_none bf acc m h20 hres]
      exact h
    | some sc =>
      by_cases hlt : acc.2.2 < sc.2
      · rw [selStep_take bf acc m sc h20 hres hlt]
        intro hc
        exact absurd hc (by simp)
      · rw [selStep_keep bf acc m sc h20 hres hlt]
        exact h
  · rw [selStep_skip bf acc m h20]
    exact h

theorem selFold_some (bf : String → List ℕ) :
    ∀ (l : List String) (acc : Option String × Option String × ℝ),
      (acc.1 = none → acc.2.2 = 0) →
      ∀ m s c, m ∈ l → 20 < (bf m).length →
        analyze_market m (bf m) = some (s, c) → 0 < c →
        (l.foldl (selStep bf) acc).1 ≠ none := by
  intro l
  induction l with
  | nil =>
    intro acc hinv m s c hm
    exact absurd hm (List.not_mem_nil m)
  | cons m0 rest ih =>
    intro acc hinv m s c hm h20 hres hpos
    rw [List.foldl_cons]
    rcases List.mem_cons.mp hm with rfl | hm2
    · apply selFold_stays_some
      by_cases hlt : acc.2.2 < c
      · rw [selStep_take bf acc m (s, c) h20 hres hlt]
        simp
      · rw [selStep_keep bf acc m (s, c) h20 hres hlt]
        intro hc
        have h0 := hinv hc
        rw [h0] at hlt
        exact absurd hpos (by simpa using hlt)
    · exact ih _ (selStep_ninv bf acc m0 hinv) m s c hm2 h20 hres hpos

theorem selectBest_sound (buffers : String → List ℕ) :
    ∀ m s c, selectBest buffers = (some m, some s, c) →
      m ∈ MARKETS ∧ 20 < (buffers m).length ∧
      analyze_market m (buffers m) = some (s, c) ∧
      ∀ m2 ∈ MARKETS, ∀ s2 c2,
        analyze_market m2 (buffers m2) = some (s2, c2) → c2 ≤ c := by
  intro m s c hsel
  unfold selectBest at hsel
  have hgood := selFold_good buffers MARKETS (none, none, 0) (Or.inl rfl) (fun m hm => hm)
  rcases hgood with hg | ⟨m1, s1, c1, hg, hmem1, h201, hana1⟩
  · rw [hsel] at hg
    exact absurd hg (by simp)
  · rw [hsel] at hg
    obtain ⟨hm, hs, hc⟩ : m = m1 ∧ s = s1 ∧ c = c1 := by
      simpa [Prod.ext_iff] using hg
    subst hm
    subst hs
    subst hc
    refine ⟨hmem1, h201, hana1, ?_⟩
    intro m3 hm3 s3 c3 hana3
    have h30 : 30 ≤ (buffers m3).length := analyze_some_len _ _ _ hana3
    have h20b : 20 < (buffers m3).length := by omega
    have hub := selFold_ub buffers MARKETS (none, none, 0) m3 s3 c3 hm3 h20b hana3
    rw [hsel] at hub
    exact hub

theorem selectBest_unique_market (buffers : String → List ℕ) :
    ∀ m0 ∈ MARKETS, 30 ≤ (buffers m0).length →
      (∀ m2 ∈ MARKETS, m2 ≠ m0 → (buffers m2).length < 30) →
      ∃ s c, selectBest buffers = (some m0, some s, c) := by
  intro m0 hm0 h30 hothers
  obtain ⟨s0, c0, hana0, hc0pos⟩ := analyze_some_pos m0 (buffers m0) h30
  have h20 : 20 < (buffers m0).length := by omega
  have hnone : (MARKETS.foldl (selStep buffers) (none, none, 0)).1 ≠ none :=
    selFold_some buffers MARKETS (none, none, 0) (fun _ => rfl)
      m0 s0 c0 hm0 h20 hana0 hc0pos
  have hgood := selFold_good buffers MARKETS (none, none, 0) (Or.inl rfl) (fun m hm => hm)
  rcases hgood with hg | ⟨m1, s1, c1, hg, hmem1, h201, hana1⟩
  · rw [hg] at hnone
    exact absurd rfl hnone
  · have h30m1 : 30 ≤ (buffers m1).length := analyze_some_len _ _ _ hana1
    by_cases heq : m1 = m0
    · subst heq
      exact ⟨s1, c1, hg⟩
    · exact absurd h30m1 (not_le.mpr (hothers m1 hmem1 heq))

/-- C5: the selection loop skips every instrument whose buffer size is at
most 20 (a selected market always has more than 20 ticks), a selected
result carries that market's own analyze_market output with confidence
maximal among every configured market that produces a signal; and when
exactly one instrument has at least 30 samples while all others have
fewer, that instrument is always the one selected, whatever its
confidence value. -/
theorem claim_C5 (buffers : String → List ℕ) :
    (∀ m s c, selectBest buffers = (some m, some s, c) →
      m ∈ MARKETS ∧ 20 < (buffers m).length ∧
      analyze_market m (buffers m) = some (s, c) ∧
      ∀ m2 ∈ MARKETS, ∀ s2 c2,
        analyze_market m2 (buffers m2) = some (s2, c2) → c2 ≤ c) ∧
    (∀ m0 ∈ MARKETS, 30 ≤ (buffers m0).length →
      (∀ m2 ∈ MARKETS, m2 ≠ m0 → (buffers m2).length < 30) →
      ∃ s c, selectBest buffers = (some m0, some s, c)) :=
  ⟨selectBest_sound buffers, selectBest_unique_market buffers⟩

set_option maxRecDepth 8000 in
/-- Witness for C5: with data only in R_10 (200 all-even ticks), the
selection loop picks R_10. -/
theorem claim_C5_witness :
    ∃ s c, selectBest evenBufs = (some "R_10", some s, c) :=
  (claim_C5 evenBufs).2 "R_10" (by decide) (by decide) (by decide)

/-! ### The notification sequencer -/

theorem send_transient (r : Option ℕ) (s : BotState) :
    send_telegram_message r false s =
      ({ s with active_messages := s.active_messages ++ r.toList }, r) := by
  cases r with
  | none => simp [send_telegram_message, Option.toList]
  | some i => simp [send_telegram_message, Option.toList]

theorem send_keep (r : Option ℕ) (s : BotState) :
    send_telegram_message r true s = (s, r) := by
  cases r with
  | none => rfl
  | some i => rfl

/-- C2: starting from Idle with a selectable market and all sends
succeeding (with the nonzero message ids Telegram issues), one completed
cycle sends exactly the three notifications pre-alert, main and expiry, and
at cleanup deletes exactly the two transient handles (pre-alert and main);
the expiry handle is not deleted during that cycle but survives in the
state, and it is deleted at the start of the next cycle before anything
else is sent. -/
theorem claim_C2 (buffers1 buffers2 : String → List ℕ) (bm1 bm2 : String)
    (hsel1 : (selectBest buffers1).1 = some bm1)
    (hsel2 : (selectBest buffers2).1 = some bm2)
    (p1 m1 e1 p2 m2 e2 : ℕ) (he1 : e1 ≠ 0) :
    fetch_and_analyze buffers1 (some p1) (some m1) (some e1)
        { active_messages := [], last_expired_id := none } =
      ({ active_messages := [], last_expired_id := some e1 },
       [Ev.sent (some p1), Ev.sent (some m1), Ev.sent (some e1),
        Ev.deleted p1, Ev.deleted m1]) ∧
    fetch_and_analyze buffers2 (some p2) (some m2) (some e2)
        { active_messages := [], last_expired_id := some e1 } =
      ({ active_messages := [], last_expired_id := some e2 },
       [Ev.deleted e1, Ev.sent (some p2), Ev.sent (some m2), Ev.sent (some e2),
        Ev.deleted p2, Ev.deleted m2]) := by
  constructor
  · simp [fetch_and_analyze, hsel1, delete_last_expired, send_telegram_message,
      delete_messages]
  · simp [fetch_and_analyze, hsel2, delete_last_expired, send_telegram_message,
      delete_messages, he1]

/-- C6: whatever the three transport outcomes are, a cycle with a
selectable market always attempts all three sends in order — a failed send
is recorded as an absent handle and, in particular, a failed main send does
not prevent the expiry send from being attempted — cleanup deletes exactly
the handles of the sends that succeeded (absent handles are skipped), and
the cycle runs to completion (the model is a total function: no send or
delete outcome aborts it). -/
theorem claim_C6 (buffers : String → List ℕ) (bm : String)
    (hsel : (selectBest buffers).1 = some bm)
    (pr mr er : Option ℕ) (s : BotState)
    (hact : s.active_messages = []) (hexp : s.last_expired_id = none) :
    fetch_and_analyze buffers pr mr er s =
      ({ active_messages := [], last_expired_id := er },
       [Ev.sent pr, Ev.sent mr, Ev.sent er] ++
         (pr.toList ++ mr.toList).map Ev.deleted) := by
  obtain ⟨a, e⟩ := s
  simp only at hact hexp
  subst hact
  subst hexp
  simp [fetch_and_analyze, hsel, delete_last_expired, send_transient, send_keep,
    delete_messages]

set_option maxRecDepth 8000 in
theorem selectBest_evenBufs_fst : (selectBest evenBufs).1 = some "R_10" := by
  obtain ⟨s, c, h⟩ :=
    selectBest_unique_market evenBufs "R_10" (by decide) (by decide) (by decide)
  rw [h]

/-- Witness for C2: a concrete two-cycle run over the all-even R_10
buffers with message ids 11..16. -/
theorem claim_C2_witness :
    fetch_and_analyze evenBufs (some 11) (some 12) (some 13)
        { active_messages := [], last_expired_id := none } =
      ({ active_messages := [], last_expired_id := some 13 },
       [Ev.sent (some 11), Ev.sent (some 12), Ev.sent (some 13),
        Ev.deleted 11, Ev.deleted 12]) ∧
    fetch_and_analyze evenBufs (some 14) (some 15) (some 16)
        { active_messages := [], last_expired_id := some 13 } =
      ({ active_messages := [], last_expired_id := some 16 },
       [Ev.deleted 13, Ev.sent (some 14), Ev.sent (some 15), Ev.sent (some 16),
        Ev.deleted 14, Ev.deleted 15]) :=
  claim_C2 evenBufs evenBufs "R_10" "R_10" selectBest_evenBufs_fst selectBest_evenBufs_fst
    11 12 13 14 15 16 (by decide)

/-- Witness for C6: with the main send failing, the expiry send is still
attempted and cleanup deletes only the pre-alert handle. -/
theorem claim_C6_witness :
    fetch_and_analyze evenBufs (some 21) none (some 22)
        { active_messages := [], last_expired_id := none } =
      ({ active_messages := [], last_expired_id := some 22 },
       [Ev.sent (some 21), Ev.sent none, Ev.sent (some 22), Ev.deleted 21]) :=
  claim_C6 evenBufs "R_10" selectBest_evenBufs_fst (some 21) none (some 22)
    { active_messages := [], last_expired_id := none } rfl rfl

end XtzBot
